import Mathlib

/-!
Verification of the streaming SQL statement splitter in `src/main.go`
(repository `ggymm/split-sqlfile`).

Go strings are modelled as `List Char` (all delimiters in the program are
single ASCII bytes, so byte-level and character-level splitting agree on
the inputs under study).  Pure functions of the source are translated
directly; the file-backed sink is modelled with explicit state: each output
file is the trace of `WriteString` payloads made to it, so both the byte
content and the number of write calls are observable.  Go map iteration
order is unspecified; the model fixes association-list order, which is
immaterial because every statement of interest is per-key.
-/

set_option maxRecDepth 4096

/-- Character-list model of a Go string. -/
abbrev Str := List Char

/-- Converts a Lean string literal to the model type. -/
def toL (s : String) : Str := s.toList

/-- Backquote character (U+0060), used by the classifier patterns. -/
def backquote : Char := Char.ofNat 96

/-- Models Go `unicode.IsSpace` (the Unicode White_Space property), the
predicate used by `strings.TrimSpace` in main.go. -/
def goIsSpace (c : Char) : Bool :=
  (9 ≤ c.val && c.val ≤ 13) || c.val = 32 || c.val = 133 || c.val = 160 ||
  c.val = 0x1680 || (0x2000 ≤ c.val && c.val ≤ 0x200A) ||
  c.val = 0x2028 || c.val = 0x2029 || c.val = 0x202F || c.val = 0x205F ||
  c.val = 0x3000

/-- Models the RE2 character class `\s` of Go `regexp` (ASCII only:
tab, newline, form feed, carriage return, space). -/
def reIsSpace (c : Char) : Bool :=
  c.val = 9 || c.val = 10 || c.val = 12 || c.val = 13 || c.val = 32

/-- Trims characters satisfying `p` from both ends of a string; with
`p := goIsSpace` this is Go `strings.TrimSpace`, with `p` testing for a
backquote it is `strings.Trim(s, "\x60")`. -/
def trimBy (p : Char → Bool) (s : Str) : Str :=
  ((s.dropWhile p).reverse.dropWhile p).reverse

/-- Models Go `strings.TrimSpace` (main.go:38, 49, 201, 212). -/
def trimSpace (s : Str) : Str := trimBy goIsSpace s

/-- Models Go `strings.Split(s, string(d))` for a one-character separator
(main.go:37, 197).  Always returns at least one piece; `[]` input gives
`[[]]`, matching Go where `strings.Split("", ";") = [""]`. -/
def splitOnChar (d : Char) : Str → List Str
  | [] => [[]]
  | c :: rest =>
    if c = d then [] :: splitOnChar d rest
    else (splitOnChar d rest).modifyHead (fun p => c :: p)

/-- Last element of a piece list, model of `statements[len(statements)-1]`
(main.go:212).  The list produced by `splitOnChar` is never empty. -/
def lastPiece : List Str → Str
  | [] => []
  | [p] => p
  | _ :: q :: rest => lastPiece (q :: rest)

/-- Models Go `strings.HasPrefix s pre` (main.go:39). -/
def startsWith : Str → Str → Bool
  | _, [] => true
  | [], _ :: _ => false
  | c :: cs, p :: ps => if c = p then startsWith cs ps else false

/-- Concatenation of a chunk list back into the full stream content. -/
def joinAll : List Str → Str
  | [] => []
  | c :: cs => c ++ joinAll cs

/-- Fuel-indexed worker for `chunksOf`; fuel at least the string length
makes the fuel bound irrelevant. -/
def chunksOfAux (n : Nat) : Nat → Str → List Str
  | _, [] => []
  | 0, _ :: _ => []
  | fuel + 1, c :: rest =>
    if n = 0 then []
    else ((c :: rest).take n) :: chunksOfAux n fuel ((c :: rest).drop n)

/-- Models the successive successful `input.Read(buffer)` results of the
driver loop (main.go:170-177) on a regular file: full `n`-byte chunks until
the content is exhausted, after which `Read` returns `(0, io.EOF)` and the
loop breaks.  An empty content yields no iterations. -/
def chunksOf (n : Nat) (s : Str) : List Str := chunksOfAux n s.length s

/-- Models Go `strings.ToUpper` (main.go:49) restricted to ASCII letters,
which is all the classifier patterns can match. -/
def goToUpper (s : Str) : Str := s.map Char.toUpper

/-- Models Go `strings.ToLower` (main.go:65) restricted to ASCII letters. -/
def goToLower (s : Str) : Str := s.map Char.toLower

/-- Matches a literal regex fragment at the current position, returning the
remaining input. -/
def lit : Str → Str → Option Str
  | [], s => some s
  | _ :: _, [] => none
  | c :: cs, x :: xs => if x = c then lit cs xs else none

/-- Matches the regex fragment `\s+` (one or more RE2 spaces, maximal):
the tokens following `\s+` in every pattern of main.go:52-58 start with a
non-space character, so maximal munch coincides with leftmost-first
backtracking semantics. -/
def sp1 (s : Str) : Option Str :=
  match s with
  | [] => none
  | c :: rest => if reIsSpace c then some (rest.dropWhile reIsSpace) else none

/-- Character class `[^\x60\s]` of the capture groups in main.go:52-58. -/
def identCls (c : Char) : Bool := !(c = backquote || reIsSpace c)

/-- Matches the capture group `([^\x60\s]+)` (maximal, nothing follows
except an optional backquote, so no backtracking is needed); returns the
captured text. -/
def ident1 (s : Str) : Option Str :=
  let cap := s.takeWhile identCls
  if cap = [] then none else some cap

/-- Matches the regex tail `(?:\x60)?([^\x60\s]+)(?:\x60)?` shared by all
six patterns (main.go:52-58), with leftmost-first treatment of the leading
optional backquote; returns the capture. -/
def tailCap (s : Str) : Option Str :=
  match s with
  | c :: rest =>
    if c = backquote then
      match ident1 rest with
      | some cap => some cap
      | none => ident1 s
    else ident1 s
  | [] => ident1 s

/-- Leftmost-first optional group `(?:...)?`: prefer matching the group,
fall back to skipping it if the continuation fails. -/
def optGroup (g : Str → Option Str) (k : Str → Option Str) (s : Str) :
    Option Str :=
  match g s with
  | some rest =>
    match k rest with
    | some cap => some cap
    | none => k s
  | none => k s

/-- Group `(?:IF\s+NOT\s+EXISTS\s+)` of the CREATE TABLE pattern
(main.go:53). -/
def gIfNotExists (s : Str) : Option Str :=
  ((((((lit (toL "IF") s).bind sp1).bind (lit (toL "NOT"))).bind
    sp1).bind (lit (toL "EXISTS"))).bind sp1)

/-- Group `(?:IF\s+EXISTS\s+)` of the DROP TABLE pattern (main.go:58). -/
def gIfExists (s : Str) : Option Str :=
  ((((lit (toL "IF") s).bind sp1).bind (lit (toL "EXISTS"))).bind sp1)

/-- Pattern `CREATE\s+TABLE\s+(?:IF\s+NOT\s+EXISTS\s+)?...` (main.go:53),
matched at the current position. -/
def pCreateAt (s : Str) : Option Str :=
  ((((lit (toL "CREATE") s).bind sp1).bind (lit (toL "TABLE"))).bind
    sp1).bind (optGroup gIfNotExists tailCap)

/-- Pattern `INSERT\s+INTO\s+...` (main.go:54). -/
def pInsertAt (s : Str) : Option Str :=
  ((((lit (toL "INSERT") s).bind sp1).bind (lit (toL "INTO"))).bind
    sp1).bind tailCap

/-- Pattern `UPDATE\s+...` (main.go:55). -/
def pUpdateAt (s : Str) : Option Str :=
  ((lit (toL "UPDATE") s).bind sp1).bind tailCap

/-- Pattern `DELETE\s+FROM\s+...` (main.go:56). -/
def pDeleteAt (s : Str) : Option Str :=
  ((((lit (toL "DELETE") s).bind sp1).bind (lit (toL "FROM"))).bind
    sp1).bind tailCap

/-- Pattern `ALTER\s+TABLE\s+...` (main.go:57). -/
def pAlterAt (s : Str) : Option Str :=
  ((((lit (toL "ALTER") s).bind sp1).bind (lit (toL "TABLE"))).bind
    sp1).bind tailCap

/-- Pattern `DROP\s+TABLE\s+(?:IF\s+EXISTS\s+)?...` (main.go:58). -/
def pDropAt (s : Str) : Option Str :=
  ((((lit (toL "DROP") s).bind sp1).bind (lit (toL "TABLE"))).bind
    sp1).bind (optGroup gIfExists tailCap)

/-- Leftmost search of `re.FindStringSubmatch` (main.go:63): the pattern is
tried at every start position from the left; the first success wins. -/
def findCap (pat : Str → Option Str) : Str → Option Str
  | [] => pat []
  | c :: rest =>
    match pat (c :: rest) with
    | some cap => some cap
    | none => findCap pat rest

/-- The six patterns of main.go:52-59 in their fixed priority order. -/
def patterns : List (Str → Option Str) :=
  [pCreateAt, pInsertAt, pUpdateAt, pDeleteAt, pAlterAt, pDropAt]

/-- Sequential first-match-wins loop over the pattern list
(main.go:61-67). -/
def firstMatch : List (Str → Option Str) → Str → Option Str
  | [], _ => none
  | p :: ps, u =>
    match findCap p u with
    | some m => some m
    | none => firstMatch ps u

/-- Embeds `Splitter.extractTable` (main.go:48-69): uppercase the trimmed
statement, try the six verb patterns in order, lowercase the first capture
and strip surrounding backquotes; empty string when nothing matches. -/
def extractTable (statement : Str) : Str :=
  let upper := goToUpper (trimSpace statement)
  match firstMatch patterns upper with
  | some m => trimBy (fun c => c = backquote) (goToLower m)
  | none => []

/-- Embeds `Splitter.hasValid` (main.go:34-46): a statement is valid iff it
is non-empty and some newline-separated line trims to a non-empty string
not starting with the comment markers.  `List.any` models the break-loop of
the source. -/
def hasValid (statement : Str) : Bool :=
  if statement = [] then false
  else
    (splitOnChar '\n' statement).any fun line =>
      let trimmed := trimSpace line
      if trimmed = [] then false
      else !(startsWith trimmed (toL "--")) && !(startsWith trimmed (toL "/*"))

/-- State of the sink: `files` maps a table name to the trace of
`WriteString` payloads made to its open handle (an entry exists once
`os.Create` ran for that table); `buffers` is `Splitter.buffers`. -/
@[ext]
structure Sink where
  files : List (Str × List Str)
  buffers : List (Str × List Str)
  deriving DecidableEq

/-- First-key lookup in an association list (Go map read). -/
def lookupA {α : Type} : List (Str × α) → Str → Option α
  | [], _ => none
  | e :: rest, key => if e.1 = key then some e.2 else lookupA rest key

/-- Key update (or insertion at the end) in an association list
(Go map write). -/
def setA {α : Type} : List (Str × α) → Str → α → List (Str × α)
  | [], key, v => [(key, v)]
  | e :: rest, key, v =>
    if e.1 = key then (key, v) :: rest else e :: setA rest key v

/-- Keys of an association list. -/
def keysOf {α : Type} (m : List (Str × α)) : List Str := m.map (fun e => e.1)

/-- Embeds `NewSplitter` (main.go:25-32): both maps start empty. -/
def newSplitter : Sink := { files := [], buffers := [] }

/-- Total number of buffered statements across all tables
(main.go:92-95). -/
def totalBuffered (sk : Sink) : Nat :=
  (sk.buffers.map (fun e => e.2.length)).sum

/-- Loop body of `flushBuffers` (main.go:109-119) for one `(table, buffer)`
entry: an empty buffer is skipped (`continue`), otherwise one `WriteString`
call per buffered statement, each payload the statement followed by a
newline, appended in buffer order to that table's file trace. -/
def flushStep (fs : List (Str × List Str)) (e : Str × List Str) :
    List (Str × List Str) :=
  if e.2 = [] then fs
  else setA fs e.1
    ((lookupA fs e.1).getD [] ++ e.2.map (fun b => b ++ ['\n']))

/-- Embeds `Splitter.flushBuffers` (main.go:108-126): for every table with
a non-empty buffer, one `WriteString` call per buffered statement with a
newline appended, in buffer order; every buffer is left empty (`[:0]`
capacity retention has no observable counterpart at this level). -/
def flushBuffers (sk : Sink) : Sink :=
  { files := sk.buffers.foldl flushStep sk.files,
    buffers := sk.buffers.map (fun e => (e.1, ([] : List Str))) }

/-- Embeds `Splitter.writeStatement` (main.go:72-100): empty table names
fall back to `misc`, the output file is created lazily, the statement is
appended to the table's buffer, and a full flush triggers when the total
buffered count exceeds 1000. -/
def writeStatement (sk : Sink) (table0 statement : Str) : Sink :=
  let table := if table0 = [] then toL "misc" else table0
  let files :=
    match lookupA sk.files table with
    | some _ => sk.files
    | none => sk.files ++ [(table, ([] : List Str))]
  let sk1 : Sink :=
    { files := files,
      buffers := setA sk.buffers table
        ((lookupA sk.buffers table).getD [] ++ [statement]) }
  if totalBuffered sk1 > 1000 then flushBuffers sk1 else sk1

/-- Loop state of `Splitter.Split` (main.go:129-244).  `emitted` is a ghost
trace recording, in order, each statement string passed to
`writeStatement`; it adds no behaviour. -/
structure SplitState where
  sink : Sink
  leftover : Str
  emitted : List Str
  count : Nat
  deriving DecidableEq

/-- Embeds the per-piece body of the inner loop (main.go:200-209): trim the
piece, and when it passes `hasValid`, write it re-terminated with `;` and
count it; otherwise it is dropped with no state change. -/
def emitFromPiece (st : SplitState) (piece : Str) : SplitState :=
  let statement := trimSpace piece
  if hasValid statement then
    { st with
      sink := writeStatement st.sink (extractTable statement)
        (statement ++ [';']),
      emitted := st.emitted ++ [statement ++ [';']],
      count := st.count + 1 }
  else st

/-- Embeds one iteration of the read loop on a successfully read chunk
(main.go:192-226): prepend the leftover, split on `;`, emit every piece but
the last, and keep the trimmed last piece as the new leftover.  The
`err == io.EOF` branch at main.go:213 is unreachable in the source: the
loop breaks at main.go:172 when `Read` reports EOF (for a regular file this
happens with `n == 0`), and inside the `n > 0` block `err` is always `nil`
(a non-nil non-EOF read error returns at main.go:176, and `writeStatement`
never returns `io.EOF`); hence only the `else` branch at main.go:222-225 is
modelled. -/
def processChunk (st : SplitState) (chunk : Str) : SplitState :=
  let work := st.leftover ++ chunk
  let statements := splitOnChar ';' work
  let st1 := statements.dropLast.foldl emitFromPiece st
  { st1 with leftover := trimSpace (lastPiece statements) }

/-- Initial loop state (main.go:140-141 with a fresh `NewSplitter`). -/
def initState : SplitState :=
  { sink := newSplitter, leftover := [], emitted := [], count := 0 }

/-- Read buffer size, main.go:15. -/
def bufSize : Nat := 64 * 1024

/-- Embeds the read loop plus the final flush of `Split`
(main.go:168-233), parameterised by the chunk size. -/
def runSplit (content : Str) (chunkSize : Nat) : SplitState :=
  let final := (chunksOf chunkSize content).foldl processChunk initState
  { final with sink := flushBuffers final.sink }

/-- Result of running a Go function that may panic. -/
inductive GoOutcome (α : Type) where
  | ok (value : α)
  | panicked (msg : String)
  deriving DecidableEq

/-- Embeds the entry of `Splitter.Split` including its `var` initializer
block (main.go:130-142).  At main.go:137 `totalBytes = inputInfo.Size()`
is evaluated while `inputInfo` still holds its zero value — the nil
`os.FileInfo` interface, modelled `none`, since `os.Stat` only assigns it
at main.go:155 — so Go panics with a nil pointer dereference before any
I/O is attempted.  The `some` branch carries the rest of the method as
`runSplit` so the embedding of the loop stays attached to its entry. -/
def SplitGo (content : Str) (chunkSize : Nat) : GoOutcome SplitState :=
  let inputInfoSize : Option Int := none
  match inputInfoSize with
  | none =>
    GoOutcome.panicked
      "runtime error: invalid memory address or nil pointer dereference"
  | some _ => GoOutcome.ok (runSplit content chunkSize)

/-- Modelled from the spec (refinement comparator for the no-loss claim):
the multiset side described by the words "naively splitting the entire
source on the delimiter, trimming, and keeping exactly the pieces that
pass the validity filter". -/
def naiveSplitSpec (content : Str) : List Str :=
  ((splitOnChar ';' content).map trimSpace).filter (fun t => hasValid t)

/-- Concrete sink used by the flush-idempotence witness. -/
def sinkIdem : Sink :=
  { files := [(toL "t", [toL "x;\n"])], buffers := [(toL "t", [])] }

/-- Concrete sink with two statements buffered for one table, used to
count the write calls of one flush. -/
def sinkTwo : Sink :=
  { files := [(toL "t", [])], buffers := [(toL "t", [toL "a;", toL "b;"])] }

/-- Concrete sink with one buffered statement, used by the per-statement
flush witness. -/
def sinkOne : Sink :=
  { files := [(toL "t", [])], buffers := [(toL "t", [toL "a;"])] }

/-! ### Basic lemmas about the splitter primitives -/

lemma splitOnChar_ne_nil (d : Char) (s : Str) : splitOnChar d s ≠ [] := by
  induction s with
  | nil => simp [splitOnChar]
  | cons c rest ih =>
    simp only [splitOnChar]
    split
    · simp
    · cases h : splitOnChar d rest with
      | nil => exact absurd h ih
      | cons p ps => simp [List.modifyHead]

lemma modifyHead_ne_nil {α : Type} {f : α → α} {l : List α} (h : l ≠ []) :
    l.modifyHead f ≠ [] := by
  cases l with
  | nil => exact absurd rfl h
  | cons a l => simp [List.modifyHead]

lemma lastPiece_cons (p : Str) {l : List Str} (h : l ≠ []) :
    lastPiece (p :: l) = lastPiece l := by
  cases l with
  | nil => exact absurd rfl h
  | cons q rest => rfl

lemma lastPiece_append {xs ys : List Str} (h : ys ≠ []) :
    lastPiece (xs ++ ys) = lastPiece ys := by
  induction xs with
  | nil => rfl
  | cons x xs ih =>
    have hne : xs ++ ys ≠ [] := by
      intro hc
      rcases List.append_eq_nil.mp hc with ⟨-, h2⟩
      exact h h2
    rw [List.cons_append, lastPiece_cons x hne, ih]

lemma lastPiece_mem {l : List Str} (h : l ≠ []) : lastPiece l ∈ l := by
  induction l with
  | nil => exact absurd rfl h
  | cons p l ih =>
    cases l with
    | nil => simp [lastPiece]
    | cons q rest =>
      rw [lastPiece_cons p (by simp)]
      exact List.mem_cons_of_mem _ (ih (by simp))

lemma dropLast_cons_ne_nil {α : Type} (a : α) {l : List α} (h : l ≠ []) :
    (a :: l).dropLast = a :: l.dropLast := by
  cases l with
  | nil => exact absurd rfl h
  | cons b l => rfl

lemma dropLast_append_ne_nil {α : Type} {xs ys : List α} (h : ys ≠ []) :
    (xs ++ ys).dropLast = xs ++ ys.dropLast := by
  induction xs with
  | nil => rfl
  | cons x xs ih =>
    have hne : xs ++ ys ≠ [] := by
      intro hc
      rcases List.append_eq_nil.mp hc with ⟨-, h2⟩
      exact h h2
    rw [List.cons_append, dropLast_cons_ne_nil x hne, ih, List.cons_append]

lemma mem_splitOnChar {d : Char} {s p : Str} (hp : p ∈ splitOnChar d s)
    {x : Char} (hx : x ∈ p) : x ∈ s := by
  induction s generalizing p with
  | nil =>
    simp [splitOnChar] at hp
    subst hp
    simp at hx
  | cons c rest ih =>
    simp only [splitOnChar] at hp
    by_cases hc : c = d
    · rw [if_pos hc] at hp
      rcases List.mem_cons.mp hp with h0 | h0
      · subst h0; simp at hx
      · exact List.mem_cons_of_mem _ (ih h0 hx)
    · rw [if_neg hc] at hp
      cases hrest : splitOnChar d rest with
      | nil => exact absurd hrest (splitOnChar_ne_nil d rest)
      | cons q qs =>
        rw [hrest] at hp
        simp only [List.modifyHead] at hp
        rcases List.mem_cons.mp hp with h0 | h0
        · subst h0
          rcases List.mem_cons.mp hx with h1 | h1
          · subst h1; simp
          · exact List.mem_cons_of_mem _
              (ih (hrest ▸ List.mem_cons_self q qs) h1)
        · exact List.mem_cons_of_mem _
            (ih (hrest ▸ List.mem_cons_of_mem q h0) hx)

lemma not_mem_lastPiece_split (d : Char) (s : Str) :
    d ∉ lastPiece (splitOnChar d s) := by
  induction s with
  | nil => simp [splitOnChar, lastPiece]
  | cons c rest ih =>
    simp only [splitOnChar]
    by_cases hc : c = d
    · rw [if_pos hc, lastPiece_cons _ (splitOnChar_ne_nil d rest)]
      exact ih
    · rw [if_neg hc]
      cases hrest : splitOnChar d rest with
      | nil => exact absurd hrest (splitOnChar_ne_nil d rest)
      | cons q qs =>
        simp only [List.modifyHead]
        cases qs with
        | nil =>
          simp only [lastPiece]
          intro hmem
          rcases List.mem_cons.mp hmem with h0 | h0
          · exact hc h0.symm
          · rw [hrest] at ih; simp [lastPiece] at ih; exact ih h0
        | cons q2 rest2 =>
          rw [lastPiece_cons _ (by simp)]
          rw [hrest] at ih
          rwa [lastPiece_cons _ (by simp)] at ih

lemma mem_dropWhile_imp {p : Char → Bool} {l : Str} {x : Char}
    (h : x ∈ l.dropWhile p) : x ∈ l := by
  induction l with
  | nil => simp [List.dropWhile] at h
  | cons c rest ih =>
    cases hc : p c with
    | true =>
      simp only [List.dropWhile, hc] at h
      exact List.mem_cons_of_mem _ (ih h)
    | false =>
      simp only [List.dropWhile, hc] at h
      exact h

lemma mem_trimBy {p : Char → Bool} {s : Str} {x : Char}
    (h : x ∈ trimBy p s) : x ∈ s := by
  simp only [trimBy, List.mem_reverse] at h
  have h1 := mem_dropWhile_imp h
  rw [List.mem_reverse] at h1
  exact mem_dropWhile_imp h1

lemma dropWhile_eq_self_of_head {p : Char → Bool} {s : Str}
    (h : ∀ c ∈ s, p c = false) : s.dropWhile p = s := by
  cases s with
  | nil => rfl
  | cons c rest =>
    simp only [List.dropWhile]
    rw [h c (List.mem_cons_self c rest)]

lemma trimBy_eq_self {p : Char → Bool} {s : Str}
    (h : ∀ c ∈ s, p c = false) : trimBy p s = s := by
  simp only [trimBy]
  rw [dropWhile_eq_self_of_head h]
  rw [dropWhile_eq_self_of_head fun c hc => h c (List.mem_reverse.mp hc)]
  exact List.reverse_reverse s

lemma mem_trimSpace {s : Str} {x : Char} (h : x ∈ trimSpace s) : x ∈ s :=
  mem_trimBy h

/-! ### The append law of the splitter -/

lemma modifyHead_cons_eq (f : Str → Str) (q : Str) (qs : List Str) :
    (q :: qs).modifyHead f = f q :: qs := rfl

lemma splitOnChar_cons_self (d : Char) (rest : Str) :
    splitOnChar d (d :: rest) = [] :: splitOnChar d rest := by
  simp [splitOnChar]

lemma splitOnChar_cons_ne {c d : Char} (hc : ¬c = d) (rest : Str) :
    splitOnChar d (c :: rest) =
      (splitOnChar d rest).modifyHead (fun p => c :: p) := by
  simp [splitOnChar, hc]

lemma splitOnChar_append (d : Char) (a b : Str) :
    splitOnChar d (a ++ b) =
      (splitOnChar d a).dropLast ++
        (splitOnChar d b).modifyHead
          (fun p => lastPiece (splitOnChar d a) ++ p) := by
  induction a with
  | nil =>
    obtain ⟨r, rs, hsb⟩ :=
      List.exists_cons_of_ne_nil (splitOnChar_ne_nil d b)
    simp [hsb, modifyHead_cons_eq, lastPiece, splitOnChar]
  | cons c a ih =>
    obtain ⟨q, qs, hsa⟩ :=
      List.exists_cons_of_ne_nil (splitOnChar_ne_nil d a)
    obtain ⟨r, rs, hsb⟩ :=
      List.exists_cons_of_ne_nil (splitOnChar_ne_nil d b)
    by_cases hc : c = d
    · subst hc
      rw [List.cons_append, splitOnChar_cons_self, splitOnChar_cons_self,
        ih, dropLast_cons_ne_nil _ (splitOnChar_ne_nil c a),
        lastPiece_cons _ (splitOnChar_ne_nil c a), List.cons_append]
    · rw [List.cons_append, splitOnChar_cons_ne hc,
        splitOnChar_cons_ne hc, ih, hsa, hsb]
      cases qs with
      | nil =>
        simp [modifyHead_cons_eq, lastPiece]
      | cons q2 rest2 =>
        have h2 : (q2 :: rest2 : List Str) ≠ [] := by simp
        simp only [modifyHead_cons_eq, dropLast_cons_ne_nil _ h2,
          lastPiece_cons _ h2, List.cons_append]

lemma splitOnChar_eq_single {d : Char} {s : Str} (h : d ∉ s) :
    splitOnChar d s = [s] := by
  induction s with
  | nil => rfl
  | cons c rest ih =>
    simp only [splitOnChar]
    rw [if_neg (by intro hc; exact h (hc ▸ List.mem_cons_self c rest))]
    rw [ih (fun hm => h (List.mem_cons_of_mem c hm))]
    rfl

lemma splitOnChar_append_noDelim {d : Char} {x : Str} (h : d ∉ x)
    (b : Str) :
    splitOnChar d (x ++ b) =
      (splitOnChar d b).modifyHead (fun p => x ++ p) := by
  rw [splitOnChar_append, splitOnChar_eq_single h]
  rfl

/-! ### Frame lemmas: the emission fold never reads or writes `leftover` -/

lemma emitFromPiece_proj {st st2 : SplitState} (p : Str)
    (hs : st.sink = st2.sink) (he : st.emitted = st2.emitted)
    (hc : st.count = st2.count) :
    (emitFromPiece st p).sink = (emitFromPiece st2 p).sink ∧
      (emitFromPiece st p).emitted = (emitFromPiece st2 p).emitted ∧
      (emitFromPiece st p).count = (emitFromPiece st2 p).count := by
  cases h : hasValid (trimSpace p) <;>
    simp [emitFromPiece, h, hs, he, hc]

lemma foldl_emit_proj (l : List Str) (st st2 : SplitState)
    (hs : st.sink = st2.sink) (he : st.emitted = st2.emitted)
    (hc : st.count = st2.count) :
    (l.foldl emitFromPiece st).sink = (l.foldl emitFromPiece st2).sink ∧
      (l.foldl emitFromPiece st).emitted =
        (l.foldl emitFromPiece st2).emitted ∧
      (l.foldl emitFromPiece st).count = (l.foldl emitFromPiece st2).count := by
  induction l generalizing st st2 with
  | nil => exact ⟨hs, he, hc⟩
  | cons p l ih =>
    obtain ⟨h1, h2, h3⟩ := emitFromPiece_proj p hs he hc
    exact ih _ _ h1 h2 h3

/-! ### Chunk fusion: splitting work over two reads equals one read,
for whitespace-free carries -/

lemma processChunk_append (st : SplitState) (a b : Str)
    (hL : ∀ c ∈ st.leftover, goIsSpace c = false)
    (ha : ∀ c ∈ a, goIsSpace c = false) :
    processChunk st (a ++ b) = processChunk (processChunk st a) b := by
  have hla : ∀ c ∈ lastPiece (splitOnChar ';' (st.leftover ++ a)),
      goIsSpace c = false := by
    intro c hc
    have hmem : c ∈ st.leftover ++ a :=
      mem_splitOnChar
        (lastPiece_mem (splitOnChar_ne_nil ';' (st.leftover ++ a))) hc
    rcases List.mem_append.mp hmem with h0 | h0
    · exact hL c h0
    · exact ha c h0
  have htrim : trimSpace (lastPiece (splitOnChar ';' (st.leftover ++ a)))
      = lastPiece (splitOnChar ';' (st.leftover ++ a)) :=
    trimBy_eq_self hla
  have hsemi : ';' ∉ lastPiece (splitOnChar ';' (st.leftover ++ a)) :=
    not_mem_lastPiece_split ';' (st.leftover ++ a)
  obtain ⟨r, rs, hsb⟩ := List.exists_cons_of_ne_nil (splitOnChar_ne_nil ';' b)
  have hM : splitOnChar ';'
        (lastPiece (splitOnChar ';' (st.leftover ++ a)) ++ b) =
      (lastPiece (splitOnChar ';' (st.leftover ++ a)) ++ r) :: rs := by
    rw [splitOnChar_append_noDelim hsemi, hsb, modifyHead_cons_eq]
  have hAB : splitOnChar ';' ((st.leftover ++ a) ++ b) =
      (splitOnChar ';' (st.leftover ++ a)).dropLast ++
        (lastPiece (splitOnChar ';' (st.leftover ++ a)) ++ r) :: rs := by
    rw [splitOnChar_append, hsb, modifyHead_cons_eq]
  simp only [processChunk]
  rw [← List.append_assoc, hAB]
  simp only [htrim, hM]
  rw [dropLast_append_ne_nil
      (show ((lastPiece (splitOnChar ';' (st.leftover ++ a)) ++ r) :: rs
        : List Str) ≠ [] by simp),
    lastPiece_append
      (show ((lastPiece (splitOnChar ';' (st.leftover ++ a)) ++ r) :: rs
        : List Str) ≠ [] by simp),
    List.foldl_append]
  simp only [SplitState.mk.injEq]
  refine ⟨?_, trivial, ?_, ?_⟩
  · refine (foldl_emit_proj _ _ _ ?_ ?_ ?_).1 <;> rfl
  · refine (foldl_emit_proj _ _ _ ?_ ?_ ?_).2.1 <;> rfl
  · refine (foldl_emit_proj _ _ _ ?_ ?_ ?_).2.2 <;> rfl

/-! ### Chunking lemmas -/

lemma chunksOfAux_join {n : Nat} (hn : 0 < n) :
    ∀ (fuel : Nat) (s : Str), s.length ≤ fuel →
      joinAll (chunksOfAux n fuel s) = s := by
  intro fuel
  induction fuel with
  | zero =>
    intro s hs
    cases s with
    | nil => rfl
    | cons c rest => simp at hs
  | succ fuel ih =>
    intro s hs
    cases s with
    | nil => rfl
    | cons c rest =>
      simp only [chunksOfAux, if_neg (Nat.pos_iff_ne_zero.mp hn)]
      simp only [joinAll]
      rw [ih ((c :: rest).drop n) ?_, List.take_append_drop]
      have : ((c :: rest).drop n).length = (c :: rest).length - n := by
        simp
      omega

lemma chunksOfAux_mem {n : Nat} :
    ∀ (fuel : Nat) (s ch : Str), ch ∈ chunksOfAux n fuel s →
      ∀ x ∈ ch, x ∈ s := by
  intro fuel
  induction fuel with
  | zero =>
    intro s ch hch
    cases s <;> simp [chunksOfAux] at hch
  | succ fuel ih =>
    intro s ch hch x hx
    cases s with
    | nil => simp [chunksOfAux] at hch
    | cons c rest =>
      simp only [chunksOfAux] at hch
      by_cases hn : n = 0
      · rw [if_pos hn] at hch
        simp at hch
      · rw [if_neg hn] at hch
        rcases List.mem_cons.mp hch with h0 | h0
        · subst h0
          exact (List.take_sublist n (c :: rest)).subset hx
        · exact (List.drop_sublist n (c :: rest)).subset
            (ih _ _ h0 x hx)

lemma chunksOf_ne_nil {n : Nat} {s : Str} (hn : 0 < n) (hs : s ≠ []) :
    chunksOf n s ≠ [] := by
  cases s with
  | nil => exact absurd rfl hs
  | cons c rest =>
    simp only [chunksOf, List.length_cons, chunksOfAux,
      if_neg (Nat.pos_iff_ne_zero.mp hn)]
    simp

lemma chunksOfAux_nil (n fuel : Nat) : chunksOfAux n fuel [] = [] := by
  cases fuel <;> rfl

lemma chunksOf_whole {s : Str} (hs : s ≠ []) : chunksOf s.length s = [s] := by
  cases s with
  | nil => exact absurd rfl hs
  | cons c rest =>
    simp only [chunksOf, List.length_cons, chunksOfAux]
    rw [if_neg (by simp)]
    rw [show (c :: rest).take (rest.length + 1) = c :: rest by
        simp [List.take_length]]
    rw [show (c :: rest).drop (rest.length + 1) = [] by
        simp [List.drop_length]]
    rw [chunksOfAux_nil]

/-! ### The driver fold over whitespace-free content -/

lemma processChunk_leftover_chars (st : SplitState) (c : Str) {x : Char}
    (hx : x ∈ (processChunk st c).leftover) : x ∈ st.leftover ++ c := by
  simp only [processChunk] at hx
  exact mem_splitOnChar
    (lastPiece_mem (splitOnChar_ne_nil ';' (st.leftover ++ c)))
    (mem_trimSpace hx)

lemma foldl_processChunk_join :
    ∀ (chunks : List Str) (st : SplitState), chunks ≠ [] →
      (∀ x ∈ st.leftover, goIsSpace x = false) →
      (∀ ch ∈ chunks, ∀ x ∈ ch, goIsSpace x = false) →
      chunks.foldl processChunk st = processChunk st (joinAll chunks) := by
  intro chunks
  induction chunks with
  | nil => intro st h; exact absurd rfl h
  | cons c rest ih =>
    intro st hne hL hc
    cases rest with
    | nil =>
      simp only [List.foldl_cons, List.foldl_nil, joinAll, List.append_nil]
    | cons r rs =>
      rw [List.foldl_cons]
      rw [ih (processChunk st c) (by simp) ?_ ?_]
      · rw [show joinAll (c :: r :: rs) = c ++ joinAll (r :: rs) from rfl]
        exact (processChunk_append st c (joinAll (r :: rs)) hL
          (hc c (List.mem_cons_self c (r :: rs)))).symm
      · intro x hx
        rcases List.mem_append.mp
          (processChunk_leftover_chars st c hx) with h0 | h0
        · exact hL x h0
        · exact hc c (List.mem_cons_self c (r :: rs)) x h0
      · intro ch hch x hx
        exact hc ch (List.mem_cons_of_mem c hch) x hx

/-! ### Claim C3: chunk-size invariance -/

/-- C3 (counterexample): the claim "for every source content and every
positive chunk size, the emitted statement sequence equals the whole-file
run" is false: on content `"a b;"` with chunk size 2, the boundary falls
after `"a "`, the carry is trimmed (main.go:212), and the statement is
emitted as `"ab;"`, while the whole-file run emits `"a b;"`. -/
theorem C3_chunk_invariance_cex :
    (runSplit (toL "a b;") 2).emitted ≠
      (runSplit (toL "a b;") (toL "a b;").length).emitted := by
  decide

/-- C3 (amended): for source content containing no whitespace characters,
the emitted statement sequence (order and text) is identical for every
positive chunk size to the single-chunk whole-file run.  The restriction
is forced by the counterexample: `strings.TrimSpace` applied to the carry
at every chunk boundary deletes whitespace interior to a statement. -/
theorem C3_chunk_invariance_noSpace (content : Str) (cs : Nat)
    (h1 : 0 < cs) (h2 : ∀ c ∈ content, goIsSpace c = false) :
    (runSplit content cs).emitted =
      (runSplit content content.length).emitted := by
  by_cases hc : content = []
  · subst hc
    simp [runSplit, chunksOf, chunksOfAux_nil]
  · have hlen : 0 < content.length := List.length_pos.mpr hc
    have hinit : ∀ x ∈ initState.leftover, goIsSpace x = false := by
      intro x hx
      simp [initState] at hx
    have e1 : (chunksOf cs content).foldl processChunk initState =
        processChunk initState content := by
      rw [foldl_processChunk_join (chunksOf cs content) initState
        (chunksOf_ne_nil h1 hc) hinit
        (fun ch hch x hx => h2 x (chunksOfAux_mem content.length content ch hch x hx)),
        show joinAll (chunksOf cs content) = content from
          chunksOfAux_join h1 content.length content le_rfl]
    have e2 : (chunksOf content.length content).foldl processChunk initState =
        processChunk initState content := by
      rw [chunksOf_whole hc]
      simp
    simp only [runSplit, e1, e2]

/-- C3 (witness): the amended invariance at the whitespace-free content
`"a;b;"` with chunk size 1. -/
theorem C3_chunk_invariance_witness :
    (runSplit (toL "a;b;") 1).emitted =
      (runSplit (toL "a;b;") (toL "a;b;").length).emitted :=
  C3_chunk_invariance_noSpace (toL "a;b;") 1 (by decide) (by decide)

/-! ### Claim C10: the carry never contains the delimiter -/

lemma processChunk_no_semi (st : SplitState) (c : Str) :
    ';' ∉ (processChunk st c).leftover := by
  simp only [processChunk]
  intro h
  exact not_mem_lastPiece_split ';' (st.leftover ++ c) (mem_trimSpace h)

/-- C10: at every iteration boundary of the read loop the single carry
fragment (`leftover`, the one `string` variable of main.go:140, so there is
at most one carry by construction) never contains the delimiter `;`: it is
the trimmed last piece of a split on `;`, which cannot contain the
separator.  Quantifying over arbitrary chunk lists covers every prefix of
every run. -/
theorem C10_carry_no_delimiter (chunks : List Str) :
    ';' ∉ ((chunks.foldl processChunk initState).leftover) := by
  rcases List.eq_nil_or_concat chunks with h | ⟨ys, y, h⟩
  · subst h
    simp [initState]
  · subst h
    rw [List.concat_eq_append, List.foldl_append]
    simp only [List.foldl_cons, List.foldl_nil]
    exact processChunk_no_semi _ y

/-! ### Claim C6: the validity filter -/

lemma validLine_iff (l : Str) :
    ((if trimSpace l = [] then false
      else !(startsWith (trimSpace l) (toL "--")) &&
        !(startsWith (trimSpace l) (toL "/*"))) = true) ↔
      (trimSpace l ≠ [] ∧ startsWith (trimSpace l) (toL "--") = false ∧
        startsWith (trimSpace l) (toL "/*") = false) := by
  by_cases h : trimSpace l = [] <;>
    simp [h, Bool.and_eq_true, Bool.not_eq_true']

lemma hasValid_iff (t : Str) :
    hasValid t = true ↔
      (t ≠ [] ∧ ∃ l ∈ splitOnChar '\n' t,
        trimSpace l ≠ [] ∧ startsWith (trimSpace l) (toL "--") = false ∧
        startsWith (trimSpace l) (toL "/*") = false) := by
  by_cases ht : t = []
  · simp [hasValid, ht]
  · simp only [hasValid, if_neg ht, List.any_eq_true, validLine_iff]
    simp [ht]

/-- C6: a candidate piece of the delimiter split is emitted (the emission
trace grows, by exactly the trimmed piece re-terminated with `;`) if and
only if, after trimming, it is non-empty and contains at least one line
that, after trimming, is non-blank and does not start with `--` or `/*`;
and a candidate failing this condition is silently dropped (the loop state
is unchanged). -/
theorem C6_validity_filter (st : SplitState) (p : Str) :
    ((trimSpace p ≠ [] ∧ ∃ l ∈ splitOnChar '\n' (trimSpace p),
        trimSpace l ≠ [] ∧ startsWith (trimSpace l) (toL "--") = false ∧
        startsWith (trimSpace l) (toL "/*") = false) →
      (emitFromPiece st p).emitted = st.emitted ++ [trimSpace p ++ [';']]) ∧
    (¬(trimSpace p ≠ [] ∧ ∃ l ∈ splitOnChar '\n' (trimSpace p),
        trimSpace l ≠ [] ∧ startsWith (trimSpace l) (toL "--") = false ∧
        startsWith (trimSpace l) (toL "/*") = false) →
      emitFromPiece st p = st) := by
  constructor
  · intro h
    have hv : hasValid (trimSpace p) = true := (hasValid_iff _).mpr h
    simp [emitFromPiece, hv]
  · intro h
    have hv : hasValid (trimSpace p) = false := by
      cases hvb : hasValid (trimSpace p) with
      | false => rfl
      | true => exact absurd ((hasValid_iff _).mp hvb) h
    simp [emitFromPiece, hv]

/-- C6 (witness): the emission branch at the concrete candidate `"x"` from
the initial loop state. -/
theorem C6_validity_filter_witness :
    (emitFromPiece initState (toL "x")).emitted =
      initState.emitted ++ [trimSpace (toL "x") ++ [';']] :=
  (C6_validity_filter initState (toL "x")).1 (by decide)

/-! ### Claim C1: the final unterminated fragment -/

/-- C1 (code evaluated at the failing input): the source `"SELECT 1"` has
no delimiter, its whole text is the final piece and passes the validity
filter, yet the run emits nothing and creates no file: the emit-at-EOF
branch (main.go:213-221) is unreachable because the loop breaks at
main.go:172 before it, so the claimed emission never happens. -/
theorem C1_final_fragment_dropped :
    hasValid (trimSpace (toL "SELECT 1")) = true ∧
      (runSplit (toL "SELECT 1") bufSize).emitted = [] ∧
      (runSplit (toL "SELECT 1") bufSize).sink.files = [] := by
  decide

/-! ### Claim C2: Split always panics -/

/-- C2 (code evaluated on every run): even when every read and write
succeeds — the pure model has no failing I/O — `Split` never returns nil:
its `var` block computes `totalBytes = inputInfo.Size()` (main.go:137)
while `inputInfo` is still the nil interface, so every call panics before
opening the input file, and the process cannot exit zero or print the
completion summary. -/
theorem C2_split_panics (content : Str) (chunkSize : Nat) :
    SplitGo content chunkSize =
      GoOutcome.panicked
        "runtime error: invalid memory address or nil pointer dereference" :=
  rfl

/-! ### Claim C4: no loss / no duplication against the naive split -/

/-- C4 (code evaluated at the failing input): for the source
`"INSERT INTO t VALUES (1)"` (no trailing delimiter) the naive
whole-source split retains the statement, but the run writes nothing at
all — the multiset of statements recoverable from the output files is
empty while the naive multiset is a singleton, because the final fragment
is dropped (dead EOF branch, main.go:213). -/
theorem C4_multiset_mismatch :
    naiveSplitSpec (toL "INSERT INTO t VALUES (1)") =
        [toL "INSERT INTO t VALUES (1)"] ∧
      (runSplit (toL "INSERT INTO t VALUES (1)") bufSize).emitted = [] ∧
      (runSplit (toL "INSERT INTO t VALUES (1)") bufSize).sink.files = [] := by
  decide

/-! ### Claim C5: classification of the fixed literal inputs -/

/-- C5: the classifier tries the six verb patterns in their fixed order
with first match winning, and on the fixed literal inputs produces:
CREATE TABLE with backquotes gives `users`, INSERT INTO gives `orders`,
SELECT matches nothing (empty result, routed to the `misc` bucket by
`writeStatement`), DROP TABLE IF EXISTS with backquotes gives `temp_x`. -/
theorem C5_classification :
    extractTable (toL "CREATE TABLE `users` (...)") = toL "users" ∧
      extractTable (toL "INSERT INTO orders VALUES (1)") = toL "orders" ∧
      extractTable (toL "SELECT 1") = [] ∧
      (writeStatement newSplitter (extractTable (toL "SELECT 1"))
          (toL "SELECT 1;")).buffers = [(toL "misc", [toL "SELECT 1;"])] ∧
      extractTable (toL "DROP TABLE IF EXISTS `temp_x`") = toL "temp_x" := by
  decide

/-! ### Sink lemmas -/

lemma totalBuffered_flush (sk : Sink) : totalBuffered (flushBuffers sk) = 0 := by
  simp only [totalBuffered, flushBuffers, List.map_map]
  refine List.sum_eq_zero ?_
  intro x hx
  rcases List.mem_map.mp hx with ⟨e, -, rfl⟩
  rfl

lemma writeStatement_total_le (sk : Sink) (t s : Str) :
    totalBuffered (writeStatement sk t s) ≤ 1000 := by
  simp only [writeStatement]
  split <;> split <;> first
    | (rw [totalBuffered_flush]; omega)
    | omega

/-- C7: along every run of `writeStatement` calls from the fresh splitter,
the total number of buffered statements across all tables is at most the
flush threshold 1000 after every call: appending one statement can reach
1001, and exactly then the guard at main.go:96 triggers `flushBuffers`,
which resets the total to zero.  Quantifying over arbitrary call lists
covers every prefix of every run, hence the bound holds for the whole
run. -/
theorem C7_buffer_bound (ops : List (Str × Str)) :
    totalBuffered
      (ops.foldl (fun sk op => writeStatement sk op.1 op.2) newSplitter)
      ≤ 1000 := by
  rcases List.eq_nil_or_concat ops with h | ⟨ys, y, h⟩
  · subst h
    simp [newSplitter, totalBuffered]
  · subst h
    rw [List.concat_eq_append, List.foldl_append]
    simp only [List.foldl_cons, List.foldl_nil]
    exact writeStatement_total_le _ y.1 y.2

lemma flushFold_empty (bs : List (Str × List Str))
    (fs : List (Str × List Str)) (h : ∀ e ∈ bs, e.2 = []) :
    bs.foldl flushStep fs = fs := by
  induction bs generalizing fs with
  | nil => rfl
  | cons e rest ih =>
    rw [List.foldl_cons,
      show flushStep fs e = fs from
        by simp [flushStep, h e (List.mem_cons_self e rest)]]
    exact ih fs (fun e2 he2 => h e2 (List.mem_cons_of_mem e he2))

/-- C8: flushing is idempotent — a second `flushBuffers` with no
intervening `writeStatement` changes nothing (all buffers are empty after
the first flush, so every entry takes the `continue` branch at
main.go:110) — and a flush over a sink whose buffers are all empty
performs no write at all: the file traces are untouched. -/
theorem C8_flush_idempotent :
    (∀ sk : Sink, flushBuffers (flushBuffers sk) = flushBuffers sk) ∧
    (∀ sk : Sink, (∀ e ∈ sk.buffers, e.2 = []) →
      (flushBuffers sk).files = sk.files) := by
  constructor
  · intro sk
    have hemp : ∀ e ∈ (flushBuffers sk).buffers, e.2 = [] := by
      intro e he
      simp only [flushBuffers] at he
      rcases List.mem_map.mp he with ⟨e2, -, rfl⟩
      rfl
    refine Sink.ext ?_ ?_
    · exact flushFold_empty (flushBuffers sk).buffers
        (flushBuffers sk).files hemp
    · show (flushBuffers sk).buffers.map (fun e => (e.1, ([] : List Str)))
        = (flushBuffers sk).buffers
      simp only [flushBuffers, List.map_map]
      rfl
  · intro sk h
    exact flushFold_empty sk.buffers sk.files h

/-- C8 (witness): both idempotence parts at a concrete sink whose single
buffer is empty and whose file already holds one write. -/
theorem C8_flush_idempotent_witness :
    flushBuffers (flushBuffers sinkIdem) = flushBuffers sinkIdem ∧
      (flushBuffers sinkIdem).files = sinkIdem.files :=
  ⟨C8_flush_idempotent.1 sinkIdem,
    C8_flush_idempotent.2 sinkIdem (by decide)⟩

/-! ### Claim C9: what one flush does to one table -/

lemma lookupA_setA_eq {α : Type} (m : List (Str × α)) (k : Str) (v : α) :
    lookupA (setA m k v) k = some v := by
  induction m with
  | nil => simp [setA, lookupA]
  | cons e rest ih =>
    by_cases he : e.1 = k
    · simp [setA, he, lookupA]
    · simp [setA, he, lookupA, ih]

lemma lookupA_setA_ne {α : Type} (m : List (Str × α)) {k t : Str}
    (h : ¬k = t) (v : α) :
    lookupA (setA m k v) t = lookupA m t := by
  induction m with
  | nil => simp [setA, lookupA, h]
  | cons e rest ih =>
    by_cases he : e.1 = k
    · simp [setA, he, lookupA, h]
    · simp [setA, he, lookupA, ih]

lemma flushStep_lookup_ne {fs : List (Str × List Str)}
    {e : Str × List Str} {t : Str} (h : ¬e.1 = t) :
    lookupA (flushStep fs e) t = lookupA fs t := by
  simp only [flushStep]
  split
  · rfl
  · exact lookupA_setA_ne _ h _

lemma flushFold_lookup_not_mem (bs : List (Str × List Str)) (t : Str) :
    ∀ fs, t ∉ keysOf bs →
      lookupA (bs.foldl flushStep fs) t = lookupA fs t := by
  induction bs with
  | nil => intro fs _; rfl
  | cons e rest ih =>
    intro fs h
    simp only [keysOf, List.map_cons, List.mem_cons, not_or] at h
    rw [List.foldl_cons, ih _ h.2]
    exact flushStep_lookup_ne (fun hc => h.1 hc.symm)

lemma flushFold_lookup (bs : List (Str × List Str)) (t : Str)
    (buf : List Str) :
    ∀ fs, (keysOf bs).Nodup → lookupA bs t = some buf → buf ≠ [] →
      lookupA (bs.foldl flushStep fs) t =
        some ((lookupA fs t).getD [] ++ buf.map (fun b => b ++ ['\n'])) := by
  induction bs with
  | nil =>
    intro fs _ hb
    simp [lookupA] at hb
  | cons e rest ih =>
    intro fs hnd hb hne
    simp only [keysOf, List.map_cons, List.nodup_cons] at hnd
    by_cases he : e.1 = t
    · have hb2 : e.2 = buf := by
        simp only [lookupA, if_pos he] at hb
        exact Option.some.inj hb
      have ht : t ∉ keysOf rest := he ▸ hnd.1
      rw [List.foldl_cons, flushFold_lookup_not_mem rest t _ ht]
      simp only [flushStep,
        if_neg (show ¬e.2 = [] by rw [hb2]; exact hne)]
      rw [he, lookupA_setA_eq, hb2]
    · have hb2 : lookupA rest t = some buf := by
        simpa [lookupA, he] using hb
      rw [List.foldl_cons, ih _ hnd.2 hb2 hne, flushStep_lookup_ne he]

lemma lookupA_map_clear (bs : List (Str × List Str)) (t : Str) :
    lookupA (bs.map (fun e => (e.1, ([] : List Str)))) t =
      (lookupA bs t).map (fun _ => ([] : List Str)) := by
  induction bs with
  | nil => rfl
  | cons e rest ih =>
    by_cases he : e.1 = t <;> simp [lookupA, he, ih]

/-- C9 (counterexample): the claim that one flush appends a table's
buffered statements "in a single write call" is false: flushing a sink
with two buffered statements for table `t` produces a file trace of two
`WriteString` payloads (main.go:115-119 loops per statement), not the
single concatenated payload the claim demands. -/
theorem C9_single_write_cex :
    lookupA (flushBuffers sinkTwo).files (toL "t") =
        some [toL "a;" ++ ['\n'], toL "b;" ++ ['\n']] ∧
      [toL "a;" ++ ['\n'], toL "b;" ++ ['\n']] ≠
        [toL "a;" ++ ['\n'] ++ (toL "b;" ++ ['\n'])] := by
  decide

/-- C9 (amended): for every table with a non-empty pending buffer (buffer
keys distinct, an invariant of the map-backed original), one flush appends
that table's buffered statements to the table's file, each followed by a
newline separator, as one write call per statement in buffer order — the
appended bytes equal the concatenation a single write would produce — and
then clears the buffer (slice-capacity retention sits below the model's
abstraction level). -/
theorem C9_flush_per_statement (sk : Sink) (t : Str) (buf : List Str)
    (hnd : (keysOf sk.buffers).Nodup)
    (hb : lookupA sk.buffers t = some buf) (hne : buf ≠ []) :
    lookupA (flushBuffers sk).files t =
        some ((lookupA sk.files t).getD [] ++
          buf.map (fun b => b ++ ['\n'])) ∧
      lookupA (flushBuffers sk).buffers t = some [] := by
  constructor
  · exact flushFold_lookup sk.buffers t buf sk.files hnd hb hne
  · show lookupA (sk.buffers.map (fun e => (e.1, ([] : List Str)))) t
      = some []
    rw [lookupA_map_clear, hb]
    rfl

/-- C9 (witness): the amended flush behaviour at a concrete sink holding
one buffered statement for table `t`. -/
theorem C9_flush_per_statement_witness :
    lookupA (flushBuffers sinkOne).files (toL "t") =
        some ((lookupA sinkOne.files (toL "t")).getD [] ++
          [toL "a;"].map (fun b => b ++ ['\n'])) ∧
      lookupA (flushBuffers sinkOne).buffers (toL "t") = some [] :=
  C9_flush_per_statement sinkOne (toL "t") [toL "a;"]
    (by decide) (by decide) (by decide)
